import Mathlib

/-!
# Verification of the halo cluster manager core

A shallow embedding of the cluster-state engine of the `halo` HA cluster
manager (Rust), together with proofs about its behaviour. The embedding
follows the source files `src/resource.rs`, `src/host.rs`, `src/cluster.rs`
and `src/remote/ocf.rs`: pure data and the per-tick state transitions are
translated into executable Lean definitions; the RPC outcomes that the
environment delivers (monitor / start replies or transport errors) are
passed in explicitly as oracles; Rust panics are modelled as `Except`
errors or `Option.none`.
-/

namespace Halo

/-- `ResourceStatus` from `src/resource.rs`. The variant order matches the
Rust `enum` declaration order, which `derive(PartialOrd, Ord)` turns into the
worst-first total order used for aggregation. -/
inductive ResourceStatus where
  | Unknown
  | Unrunnable
  | Stopped
  | CheckingAway
  | CheckingHome
  | RunningOnAway
  | RunningOnHome
deriving DecidableEq, Inhabited

namespace ResourceStatus

/-- The discriminant of a `ResourceStatus` variant: its position in the Rust
`enum` declaration. `derive(Ord)` compares variants by this number. -/
def rank : ResourceStatus → Nat
  | Unknown => 0
  | Unrunnable => 1
  | Stopped => 2
  | CheckingAway => 3
  | CheckingHome => 4
  | RunningOnAway => 5
  | RunningOnHome => 6

/-- The derived `Ord` on the Rust enum: comparison of discriminants. -/
def le (a b : ResourceStatus) : Prop := rank a ≤ rank b

instance : DecidablePred (fun p : ResourceStatus × ResourceStatus => le p.1 p.2) :=
  fun p => Nat.decLe (rank p.1) (rank p.2)

instance decLe (a b : ResourceStatus) : Decidable (le a b) :=
  Nat.decLe (rank a) (rank b)

/-- `Ord::min` for two statuses, as used by `Iterator::min`:
the smaller of the two in the derived order (ties keep the accumulator). -/
def minStatus (a b : ResourceStatus) : ResourceStatus :=
  if rank b < rank a then b else a

/-- `ResourceStatus::get_worst` (src/resource.rs:460-465):
`list.min().unwrap_or(Self::Unknown)`. Rust's `Iterator::min` folds the
iterator keeping the least element; on an empty iterator it yields `None`,
so `get_worst` yields `Unknown`. -/
def get_worst (list : List ResourceStatus) : ResourceStatus :=
  match list with
  | [] => Unknown
  | x :: xs => xs.foldl minStatus x

end ResourceStatus

/-- `ocf::Status` from `src/remote/ocf.rs`: OCF resource-agent exit statuses. -/
inductive OcfStatus where
  | Success
  | ErrGeneric
  | ErrArgs
  | ErrUnimplemented
  | ErrPerm
  | ErrInstalled
  | ErrConfigured
  | ErrNotRunning
deriving DecidableEq, Inhabited

namespace OcfStatus

/-- `impl From<i32> for Status` (src/remote/ocf.rs:86-103): exit codes 0..=7
map to the variants in declaration order, everything else falls through the
catch-all arm to `ErrUnimplemented` (after printing a warning). The Rust
`match` on integer literals is embedded as the equivalent chain of equality
tests. -/
def fromCode (st : Int) : OcfStatus :=
  if st = 0 then Success
  else if st = 1 then ErrGeneric
  else if st = 2 then ErrArgs
  else if st = 3 then ErrUnimplemented
  else if st = 4 then ErrPerm
  else if st = 5 then ErrInstalled
  else if st = 6 then ErrConfigured
  else if st = 7 then ErrNotRunning
  else ErrUnimplemented

/-- The inverse direction: the exit code a variant stands for. Used to state
that `fromCode` restricted to 0..=7 is a bijection onto the variants. -/
def code : OcfStatus → Int
  | Success => 0
  | ErrGeneric => 1
  | ErrArgs => 2
  | ErrUnimplemented => 3
  | ErrPerm => 4
  | ErrInstalled => 5
  | ErrConfigured => 6
  | ErrNotRunning => 7

end OcfStatus

/-- The outcome of one resource-agent RPC as seen by the manager
(`Result<ocf::Status, Box<dyn Error>>`): either the remote agent's OCF
status, or a transport-level error. -/
abbrev RpcOutcome := Except Unit OcfStatus

/-- A resource dependency tree: each `Resource` (src/resource.rs:185-208)
carries a mutable status and the list of its dependents. All other fields
(kind, parameters, host bindings) are irrelevant to the lifecycle
transitions and are modelled separately where a claim needs them. -/
inductive RTree where
  | node (status : ResourceStatus) (dependents : List RTree)

instance : Inhabited RTree := ⟨RTree.node ResourceStatus.Unknown []⟩

namespace RTree

/-- The status stored at the root of a tree. -/
def rootStatus : RTree → ResourceStatus
  | node st _ => st

/-- The dependents of the root. -/
def deps : RTree → List RTree
  | node _ cs => cs

mutual
/-- Number of nodes in a tree. -/
def size : RTree → Nat
  | node _ cs => 1 + sizeList cs
/-- Number of nodes in a forest. -/
def sizeList : List RTree → Nat
  | [] => 0
  | t :: ts => size t + sizeList ts
end

theorem size_pos (t : RTree) : 0 < size t := by
  cases t with
  | node st cs => simp [size]

theorem sizeList_append (l₁ l₂ : List RTree) :
    sizeList (l₁ ++ l₂) = sizeList l₁ + sizeList l₂ := by
  induction l₁ with
  | nil => simp [sizeList]
  | cons t ts ih => simp [sizeList, ih]; omega

mutual
/-- The statuses of all nodes of a tree (preorder); used as the reference
"set of members" when relating the BFS traversal to the tree. -/
def allStatuses : RTree → List ResourceStatus
  | node st cs => st :: allStatusesList cs
/-- The statuses of all nodes of a forest. -/
def allStatusesList : List RTree → List ResourceStatus
  | [] => []
  | t :: ts => allStatuses t ++ allStatusesList ts
end

/-- The breadth-first traversal of `ResourceIterator` (src/resource.rs:169-182):
pop the front of the queue, append its dependents to the back, yield the
popped resource. Here specialised to yield each visited resource's status,
which is what `update_overall_status` consumes. -/
def bfsStatuses (queue : List RTree) : List ResourceStatus :=
  match queue with
  | [] => []
  | node st cs :: rest => st :: bfsStatuses (rest ++ cs)
termination_by sizeList queue
decreasing_by
  simp [sizeList_append, sizeList, size]
  omega

end RTree

/-- A `ResourceGroup` (src/resource.rs:17-20): a root resource tree plus a
mutable overall status. -/
structure ResourceGroup where
  root : RTree
  overall : ResourceStatus

namespace ResourceGroup

/-- `ResourceGroup::resources()` yields the members of the group by BFS
starting from the root; here the list of their statuses, as consumed by
`update_overall_status` (src/resource.rs:128-134). -/
def memberStatuses (g : ResourceGroup) : List ResourceStatus :=
  RTree.bfsStatuses [g.root]

/-- `ResourceGroup::update_overall_status` (src/resource.rs:128-134): collect
every member's status via the BFS iterator and store the worst one. -/
def update_overall_status (g : ResourceGroup) : ResourceGroup :=
  { g with overall := ResourceStatus.get_worst g.memberStatuses }

end ResourceGroup

/-- `HostStatus` from `src/host.rs:19-24`. -/
inductive HostStatus where
  | Up
  | Down
  | Unknown
deriving DecidableEq, Inhabited

/-- `Host::set_status` (src/host.rs:143-151): storing `Down` panics
("Down status for host is not possible yet"), anything else is stored.
A panic is modelled as `none`; `some s` is the stored value. The current
value is irrelevant: the Rust function overwrites unconditionally after the
panic check. -/
def hostSetStatus (status : HostStatus) : Option HostStatus :=
  match status with
  | HostStatus.Down => none
  | _ => some status

/-- A `Host` is constructed with `status: Mutex::new(HostStatus::Unknown)`
(src/host.rs:44). -/
def hostInitialStatus : HostStatus := HostStatus.Unknown

/-- Run a sequence of `Host::set_status` calls from a current stored value.
If some call panics (`none`), the whole run is poisoned: no further value is
ever stored and `get_status` cannot observe a later state. -/
def runSetStatus (cur : HostStatus) : List HostStatus → Option HostStatus
  | [] => some cur
  | s :: rest =>
    match hostSetStatus s with
    | none => none
    | some v => runSetStatus v rest

/-- The comparator `|a, b| a.cmp(b)` used in `Resource::params_string`
(src/resource.rs:425) on `(&String, &String)` pairs: lexicographic order,
key first, then value. -/
def pairLe (a b : String × String) : Prop :=
  a.1 < b.1 ∨ (a.1 = b.1 ∧ a.2 ≤ b.2)

instance : DecidableRel pairLe := fun a b => by
  unfold pairLe; infer_instance

instance : IsTotal (String × String) pairLe := by
  constructor
  intro a b
  rcases lt_trichotomy a.1 b.1 with h | h | h
  · exact Or.inl (Or.inl h)
  · rcases le_total a.2 b.2 with h2 | h2
    · exact Or.inl (Or.inr ⟨h, h2⟩)
    · exact Or.inr (Or.inr ⟨h.symm, h2⟩)
  · exact Or.inr (Or.inl h)

instance : IsTrans (String × String) pairLe := by
  constructor
  intro a b c hab hbc
  rcases hab with h | ⟨he, hv⟩ <;> rcases hbc with h' | ⟨he', hv'⟩
  · exact Or.inl (lt_trans h h')
  · exact Or.inl (he' ▸ h)
  · exact Or.inl (he ▸ h')
  · exact Or.inr ⟨he.trans he', le_trans hv hv'⟩

/-- The `"\"{k}\": \"{v}\""` fragment pushed for one parameter pair in
`Resource::params_string` (src/resource.rs:427-433). -/
def renderKV (p : String × String) : String :=
  "\"" ++ p.1 ++ "\": \"" ++ p.2 ++ "\""

/-- The `for_each` body of `Resource::params_string`: the last pair gets the
closing brace appended, every earlier pair gets `", "` appended. -/
def renderGo : List (String × String) → String
  | [] => ""
  | [p] => renderKV p ++ "\x7d"
  | p :: rest => renderKV p ++ ", " ++ renderGo rest

/-- `Resource::params_string` (src/resource.rs:423-435): collect the
parameter pairs, sort them with `a.cmp(b)` (lexicographic on (key, value);
ties mean equal pairs, so any sorting algorithm yields the same list as
Rust's stable sort), then build the string starting from `"{"`. The input
list stands for the iteration view of the parameter `HashMap`. -/
def params_string (params : List (String × String)) : String :=
  "\x7b" ++ renderGo (List.insertionSort pairLe params)

/-- The spec-side serialization of a non-empty parameter map, following the
claim's words: the pairs, separated by commas. -/
def commaJoin : List String → String
  | [] => ""
  | [a] => a
  | a :: rest => a ++ ", " ++ commaJoin rest

/-- The `Debug` rendering (`{:?}`) of a `ResourceStatus`: the variant name. -/
def statusName : ResourceStatus → String
  | ResourceStatus.Unknown => "Unknown"
  | ResourceStatus.Unrunnable => "Unrunnable"
  | ResourceStatus.Stopped => "Stopped"
  | ResourceStatus.CheckingAway => "CheckingAway"
  | ResourceStatus.CheckingHome => "CheckingHome"
  | ResourceStatus.RunningOnAway => "RunningOnAway"
  | ResourceStatus.RunningOnHome => "RunningOnHome"

/-- `Resource::status_update_string` (src/resource.rs:399-406). -/
def statusUpdateString (params : List (String × String))
    (old new : ResourceStatus) : String :=
  "Updating status of resource " ++ params_string params ++ " from " ++
    statusName old ++ " to " ++ statusName new

/-- `Resource::set_status` (src/resource.rs:384-397): store the new status;
if the verbose flag is set and the value changed, write the
"Updating status of resource …" line to the manager's output stream.
Returns the stored status together with the lines written. -/
def set_status (verbose : Bool) (params : List (String × String))
    (cur new : ResourceStatus) : ResourceStatus × List String :=
  (new,
    if verbose then
      if cur ≠ new then [statusUpdateString params cur new] else []
    else [])

/-- The status mapping shared by `Resource::observe_loop`
(src/resource.rs:235-247), `ResourceGroup::update_resources`
(src/resource.rs:87-102) and `Resource::update_status`
(src/resource.rs:362-378): `Ok(Success) → RunningOnHome`,
`Ok(ErrNotRunning) → Stopped`, any other `Ok` → `Unknown`, transport error
→ `Unknown`. -/
def monitorToStatus : RpcOutcome → ResourceStatus
  | Except.ok OcfStatus.Success => ResourceStatus.RunningOnHome
  | Except.ok OcfStatus.ErrNotRunning => ResourceStatus.Stopped
  | Except.ok _ => ResourceStatus.Unknown
  | Except.error _ => ResourceStatus.Unknown

/-- One iteration of `Resource::observe_loop` (src/resource.rs:231-251) for
one resource: the monitor outcome is mapped to a new status which is written
directly through the locked `status` field (`*old_status = …`), without
going through `set_status`. Hence no "Updating …" line is written to the
manager's output stream (the `Err` arm's eprintln goes to stderr and is a
"Could not monitor" message, not a status-update line). Returns the new
status and the "Updating …" lines written (always none). -/
def observeStep (outcome : RpcOutcome) (_cur : ResourceStatus) :
    ResourceStatus × List String :=
  (monitorToStatus outcome, [])

/-- `Location` from `src/resource.rs:468-472`. -/
inductive Location where
  | Home
  | Away
deriving DecidableEq, Inhabited

/-- `Resource::set_running_on_loc` (src/resource.rs:415-420): the running
status corresponding to a location. -/
def runningOnLoc : Location → ResourceStatus
  | Location.Home => ResourceStatus.RunningOnHome
  | Location.Away => ResourceStatus.RunningOnAway

/-- `Resource::is_running` (src/resource.rs:408-413). -/
def isRunning : ResourceStatus → Bool
  | ResourceStatus.RunningOnHome => true
  | ResourceStatus.RunningOnAway => true
  | _ => false

/-- Whether an RPC outcome is a transport error (`Err(_)`). -/
def isErr : RpcOutcome → Bool
  | Except.error _ => true
  | Except.ok _ => false

/-- An environment oracle: the reply the environment delivers to the RPC
issued for the node at a given path (a path is the list of child indexes
from the resource the oracle is rooted at). -/
abbrev Oracle := List Nat → RpcOutcome

/-- Shift an oracle to the subtree rooted at child `i`. -/
def shiftOracle (o : Oracle) (i : Nat) : Oracle :=
  fun p => o (i :: p)

namespace RTree

/-- The status of the node reached from `t` by following the child indexes
in `p`; `none` if the path leaves the tree. -/
def statusAt : List Nat → RTree → Option ResourceStatus
  | [], node st _ => some st
  | i :: p, node _ cs =>
    match cs[i]? with
    | some c => statusAt p c
    | none => none

mutual
/-- The paths of all nodes of a tree, relative to its root. -/
def nodePaths : RTree → List (List Nat)
  | node _ cs => [] :: nodePathsList 0 cs
/-- The paths of all nodes of a forest whose first element has index `i`. -/
def nodePathsList (i : Nat) : List RTree → List (List Nat)
  | [] => []
  | c :: rest => (nodePaths c).map (fun p => i :: p) ++ nodePathsList (i + 1) rest
end

mutual
/-- The per-member effect of `ResourceGroup::update_resources`
(src/resource.rs:78-109): every member's monitor outcome is mapped by
`monitorToStatus` and stored with `set_status`. -/
def updateTree (o : Oracle) : RTree → RTree
  | node _ cs => node (monitorToStatus (o [])) (updateTreeList o 0 cs)
/-- `updateTree` over a forest whose first element has index `i`. -/
def updateTreeList (o : Oracle) (i : Nat) : List RTree → List RTree
  | [] => []
  | c :: rest => updateTree (shiftOracle o i) c :: updateTreeList o (i + 1) rest
end

mutual
/-- The `error_seen` flag of `ResourceGroup::update_resources`: whether any
member's monitor ended in a transport error. -/
def anyErr (o : Oracle) : RTree → Bool
  | node _ cs => isErr (o []) || anyErrList o 0 cs
/-- `anyErr` over a forest whose first element has index `i`. -/
def anyErrList (o : Oracle) (i : Nat) : List RTree → Bool
  | [] => false
  | c :: rest => anyErr (shiftOracle o i) c || anyErrList o (i + 1) rest
end

end RTree

/-- `ResourceGroup::update_resources` (src/resource.rs:78-109): monitor all
members, store the mapped statuses, then set the home host's power status to
`Unknown` if any monitor ended in a transport error and to `Up` otherwise. -/
def update_resources (o : Oracle) (t : RTree) : RTree × HostStatus :=
  (RTree.updateTree o t,
    if RTree.anyErr o t then HostStatus.Unknown else HostStatus.Up)

/-- The status stored after a start attempt, from the `match` in
`Resource::start_if_needed_recursive` (src/resource.rs:258-266):
`Ok(Success)` → `set_running_on_loc(loc)`, any other `Ok` → `Stopped`,
transport error → `Unknown`. -/
def startResultStatus (loc : Location) : RpcOutcome → ResourceStatus
  | Except.ok OcfStatus.Success => runningOnLoc loc
  | Except.ok _ => ResourceStatus.Stopped
  | Except.error _ => ResourceStatus.Unknown

namespace RTree

mutual
/-- `Resource::start_if_needed_recursive` (src/resource.rs:255-277).
If the resource is not already running, issue a `Start` RPC (recorded in the
returned trace as this node's relative path `[]`) and store the mapped
result status; then, only if the resource is now running, recurse into the
dependents. Returns the updated tree and the trace of every node path for
which a `Start` RPC was issued. -/
def start_if_needed_recursive (o : Oracle) (loc : Location) :
    RTree → RTree × List (List Nat)
  | node st cs =>
    let afterSelf : ResourceStatus × List (List Nat) :=
      if isRunning st then (st, [])
      else (startResultStatus loc (o []), [[]])
    if isRunning afterSelf.1 then
      let rc := startRecList o loc 0 cs
      (node afterSelf.1 rc.1, afterSelf.2 ++ rc.2)
    else
      (node afterSelf.1 cs, afterSelf.2)
/-- `future::join_all` over the dependents (src/resource.rs:270-276): each
child is started recursively; traces are collected with the child's index
prepended to its paths. -/
def startRecList (o : Oracle) (loc : Location) (i : Nat) :
    List RTree → List RTree × List (List Nat)
  | [] => ([], [])
  | c :: rest =>
    let rc := start_if_needed_recursive (shiftOracle o i) loc c
    let rr := startRecList o loc (i + 1) rest
    (rc.1 :: rr.1, rc.2.map (fun p => i :: p) ++ rr.2)
end

end RTree

/-- `ResourceGroup::try_start_resources` (src/resource.rs:112-114). -/
def try_start_resources (o : Oracle) (loc : Location) (t : RTree) :
    RTree × List (List Nat) :=
  RTree.start_if_needed_recursive o loc t

/-- A status that can legally appear in a non-HA group: the only values the
non-HA paths ever store. -/
def nonHAStatus : ResourceStatus → Bool
  | ResourceStatus.Unknown => true
  | ResourceStatus.Stopped => true
  | ResourceStatus.RunningOnHome => true
  | _ => false

/-- The mutable state of one non-HA resource group task: the resource tree,
the group's aggregate status, and the home host's power status. -/
structure NonHAState where
  tree : RTree
  overall : ResourceStatus
  host : HostStatus

/-- One iteration of the `loop` in `ResourceGroup::manage_non_ha`
(src/resource.rs:55-71): dispatch on the current aggregate status —
`Unknown`/`RunningOnHome` refresh every member at `Home`, `Stopped`
attempts a dependency-ordered start at `Home`, `Unrunnable` does nothing,
and the remaining three statuses hit `panic!` (modelled as `Except.error`
with the panic message) — then recompute the aggregate with
`update_overall_status`. -/
def manage_non_ha_step (s : NonHAState) (o : Oracle) : Except String NonHAState :=
  match
    (match s.overall with
     | ResourceStatus.Unknown =>
       Except.ok (update_resources o s.tree)
     | ResourceStatus.Stopped =>
       Except.ok ((try_start_resources o Location.Home s.tree).1, s.host)
     | ResourceStatus.RunningOnHome =>
       Except.ok (update_resources o s.tree)
     | ResourceStatus.RunningOnAway =>
       Except.error "RunningOnAway shouldn't be reachable in a non-HA cluster."
     | ResourceStatus.Unrunnable => Except.ok (s.tree, s.host)
     | ResourceStatus.CheckingHome =>
       Except.error "CheckingHome shouldn't be reachable here."
     | ResourceStatus.CheckingAway =>
       Except.error "CheckingAway shouldn't be reachable in a non-HA cluster.")
  with
  | Except.error e => Except.error e
  | Except.ok (t', h') =>
    Except.ok
      { tree := t',
        overall := ResourceStatus.get_worst (RTree.bfsStatuses [t']),
        host := h' }

/-- Iterate `manage_non_ha_step` over a list of per-tick oracles, stopping
at the first panic. -/
def runNonHASteps (s : NonHAState) : List Oracle → Except String NonHAState
  | [] => Except.ok s
  | o :: rest =>
    match manage_non_ha_step s o with
    | Except.error e => Except.error e
    | Except.ok s' => runNonHASteps s' rest

/-- `ResourceGroup::manage_non_ha` (src/resource.rs:53-72) driven for
finitely many ticks: first the initial `update_resources(Home)` (before the
loop, with the group's overall status still at its initial `Unknown`), then
one `manage_non_ha_step` per remaining oracle. -/
def runNonHA (t0 : RTree) (o0 : Oracle) (os : List Oracle) :
    Except String NonHAState :=
  let first := update_resources o0 t0
  runNonHASteps
    { tree := first.1, overall := ResourceStatus.Unknown, host := first.2 } os

/-- The safety invariant of the non-HA loop: the aggregate and every member
status stay within the values the non-HA paths can store. -/
def nonHAInv (s : NonHAState) : Prop :=
  nonHAStatus s.overall = true ∧
    ∀ x ∈ RTree.allStatuses s.tree, nonHAStatus x = true

/-- `config::Resource` (src/config.rs:28-38): agent kind, parameter map
(modelled as a key-value list), and the optional id of the single resource
this one requires. -/
structure ConfigResource where
  kind : String
  parameters : List (String × String)
  requires : Option String
deriving DecidableEq, Inhabited

/-- One entry of a host's `resources` map: the resource's unique id together
with its configuration. A list of entries stands for one iteration order of
the `HashMap`. -/
abbrev Entry := String × ConfigResource

/-- The ids of a host's resources, in iteration order. -/
def keysOf (l : List Entry) : List String := l.map Prod.fst

/-- The state of `Cluster::one_host_resource_groups`
(src/cluster.rs:159-261) during its tree-building loop. `origChildren x`
models the `children` vector of the `TransitionalResource` stored in the
original `resources` map for id `x`; `procChildren x` models the `children`
vector of the `Rc` clone placed in `processed_nodes` when `x` was
processed (the clone snapshots the original's children at that moment);
`processed` holds the processed ids; `roots` the ids of the roots, in
discovery order. -/
structure BuildState where
  origChildren : String → List String
  procChildren : String → List String
  processed : List String
  roots : List String

/-- Pointwise update of a children table. -/
def updateFn (f : String → List String) (k : String) (v : List String) :
    String → List String :=
  fun x => if x = k then v else f x

/-- The empty build state: all children vectors empty, nothing processed. -/
def initBuildState : BuildState :=
  { origChildren := fun _ => [],
    procChildren := fun _ => [],
    processed := [],
    roots := [] }

/-- One iteration of the `for (id, res) in resources.iter()` loop of
`Cluster::one_host_resource_groups` (src/cluster.rs:222-243): clone the
resource into `processed_nodes` (capturing the children pushed to the
original so far), then resolve its `requires` edge — push onto the
processed parent if the parent was already processed, onto the original
map entry if the parent is a not-yet-processed key, and otherwise hit the
`resources.get(parent).unwrap()` panic, which is modelled as
`Except.error ()`. A resource without `requires` becomes a root. -/
def buildStep (keys : List String) (st : BuildState) (e : Entry) :
    Except Unit BuildState :=
  let id := e.1
  let st1 : BuildState :=
    { st with
        processed := st.processed ++ [id],
        procChildren := updateFn st.procChildren id (st.origChildren id) }
  match e.2.requires with
  | none => Except.ok { st1 with roots := st1.roots ++ [id] }
  | some parent =>
    if parent ∈ st1.processed then
      Except.ok
        { st1 with
            procChildren :=
              updateFn st1.procChildren parent (st1.procChildren parent ++ [id]) }
    else if parent ∈ keys then
      Except.ok
        { st1 with
            origChildren :=
              updateFn st1.origChildren parent (st1.origChildren parent ++ [id]) }
    else
      Except.error ()

/-- Fold `buildStep` over the entries, stopping at the first panic. -/
def buildFold (keys : List String) : BuildState → List Entry → Except Unit BuildState
  | st, [] => Except.ok st
  | st, e :: rest =>
    match buildStep keys st e with
    | Except.error u => Except.error u
    | Except.ok st' => buildFold keys st' rest

/-- The tree-building phase of `Cluster::one_host_resource_groups`
(src/cluster.rs:159-261) on one iteration order of the host's resource map.
The returned state determines the produced `ResourceGroup`s completely: one
group per id in `roots`, and `into_resource` turns id `x` into a `Resource`
whose dependents are the trees of `procChildren x` and whose
(kind, parameters) come from `x`'s entry; the home and failover hosts are
the same for every resource of the host. -/
def one_host_resource_groups (l : List Entry) : Except Unit BuildState :=
  buildFold (keysOf l) initBuildState l

/-- The child ids of `x` contributed by the entries `P`: the entries whose
`requires` names `x`, in order. -/
def childIds (P : List Entry) (x : String) : List String :=
  (P.filter (fun e => decide (e.2.requires = some x))).map Prod.fst

/-- The root ids contributed by the entries `P`: the entries without
`requires`, in order. -/
def rootIds (P : List Entry) : List String :=
  (P.filter (fun e => decide (e.2.requires = none))).map Prod.fst

/-- The per-host pass of `Cluster::new` (src/cluster.rs:124-142): each
config host is turned into its resource groups and the groups are appended
in host order. -/
def clusterAssembly (hosts : List (String × List Entry)) :
    List (String × Except Unit BuildState) :=
  hosts.map (fun h => (h.1, one_host_resource_groups h.2))

/-- The loop invariant of the tree-building pass after the entries `P` have
been processed: `processed` is exactly the keys of `P` in order; for a
processed id the processed clone's children are exactly the ids of the
entries of `P` that require it, in order; for an unprocessed id the same
holds of the original entry's children; and `roots` collects the ids of
`P`'s root entries in order. -/
def buildInv (P : List Entry) (st : BuildState) : Prop :=
  st.processed = keysOf P ∧
  (∀ x, x ∈ keysOf P → st.procChildren x = childIds P x) ∧
  (∀ x, x ∉ keysOf P → st.origChildren x = childIds P x) ∧
  st.roots = rootIds P

/-- A well-formed two-resource host configuration: a zpool root `p1` and a
Lustre target `ost1` that requires it. Used to instantiate the assembly
theorems on concrete input. -/
def c8EntryPool : Entry :=
  ("p1", ⟨"heartbeat/ZFS", [("pool", "p1")], none⟩)

/-- The dependent entry of the two-resource host configuration. -/
def c8EntryOst : Entry :=
  ("ost1", ⟨"lustre/Lustre", [("target", "p1/ost1")], some "p1"⟩)

/-- A one-host configuration with an unresolved `requires`: `ost1` names the
parent `p1`, but no resource with id `p1` exists on the host. -/
def c5FailingEntries : List Entry :=
  [("ost1",
    { kind := "lustre/Lustre",
      parameters := [("target", "p1/ost1"), ("mountpoint", "/mnt/ost1")],
      requires := some "p1" })]

namespace ResourceStatus

theorem minStatus_eq_or (a b : ResourceStatus) : minStatus a b = a ∨ minStatus a b = b := by
  unfold minStatus
  split
  · exact Or.inr rfl
  · exact Or.inl rfl

theorem rank_minStatus_le_left (a b : ResourceStatus) : rank (minStatus a b) ≤ rank a := by
  unfold minStatus
  split
  · omega
  · exact Nat.le_refl _

theorem rank_minStatus_le_right (a b : ResourceStatus) : rank (minStatus a b) ≤ rank b := by
  unfold minStatus
  split
  · exact Nat.le_refl _
  · omega

theorem foldl_minStatus_mem (xs : List ResourceStatus) (a : ResourceStatus) :
    xs.foldl minStatus a ∈ a :: xs := by
  induction xs generalizing a with
  | nil => simp [List.foldl]
  | cons x xs ih =>
    simp only [List.foldl]
    have hm := ih (minStatus a x)
    rcases List.mem_cons.mp hm with hm | hm
    · rcases minStatus_eq_or a x with h | h <;> rw [hm, h] <;> simp
    · simp [hm]

theorem foldl_minStatus_le (xs : List ResourceStatus) (a : ResourceStatus) :
    rank (xs.foldl minStatus a) ≤ rank a ∧
      ∀ x ∈ xs, rank (xs.foldl minStatus a) ≤ rank x := by
  induction xs generalizing a with
  | nil => simp [List.foldl]
  | cons x xs ih =>
    simp only [List.foldl]
    obtain ⟨h₁, h₂⟩ := ih (minStatus a x)
    refine ⟨le_trans h₁ (rank_minStatus_le_left a x), ?_⟩
    intro y hy
    rcases List.mem_cons.mp hy with hy | hy
    · rw [hy]
      exact le_trans h₁ (rank_minStatus_le_right a x)
    · exact h₂ y hy

/-- `get_worst` returns either `Unknown` (empty input) or an element of the
input list. -/
theorem get_worst_mem (l : List ResourceStatus) : get_worst l ∈ Unknown :: l := by
  cases l with
  | nil => simp [get_worst]
  | cons x xs =>
    have h := foldl_minStatus_mem xs x
    simp only [get_worst]
    rcases List.mem_cons.mp h with h | h
    · rw [h]; simp
    · simp [h]

/-- `get_worst` is a lower bound of the input list in the derived order. -/
theorem get_worst_le (l : List ResourceStatus) (x : ResourceStatus) (hx : x ∈ l) :
    le (get_worst l) x := by
  cases l with
  | nil => cases hx
  | cons y ys =>
    obtain ⟨h₁, h₂⟩ := foldl_minStatus_le ys y
    simp only [get_worst]
    rcases List.mem_cons.mp hx with hx | hx
    · subst hx; exact h₁
    · exact h₂ x hx

end ResourceStatus

namespace RTree

theorem allStatusesList_append (l₁ l₂ : List RTree) :
    allStatusesList (l₁ ++ l₂) = allStatusesList l₁ ++ allStatusesList l₂ := by
  induction l₁ with
  | nil => simp [allStatusesList]
  | cons t ts ih => simp [allStatusesList, ih]

/-- The breadth-first traversal visits exactly the nodes of the forest: its
status list is a permutation of the (preorder) list of all statuses. -/
theorem bfsStatuses_perm (queue : List RTree) :
    (bfsStatuses queue).Perm (allStatusesList queue) := by
  induction queue using bfsStatuses.induct with
  | case1 => simp [bfsStatuses, allStatusesList]
  | case2 st cs rest ih =>
    rw [bfsStatuses]
    have ih' : (bfsStatuses (rest ++ cs)).Perm
        (allStatusesList rest ++ allStatusesList cs) := by
      rw [← allStatusesList_append]; exact ih
    have h := List.Perm.cons st (ih'.trans List.perm_append_comm)
    simpa [allStatusesList, allStatuses] using h

/-- A BFS starting from one tree never yields the empty list: the root is
yielded first. -/
theorem bfsStatuses_singleton_ne_nil (t : RTree) : bfsStatuses [t] ≠ [] := by
  cases t with
  | node st cs => rw [bfsStatuses]; simp

end RTree

theorem ResourceStatus.get_worst_mem_of_ne_nil (l : List ResourceStatus) (h : l ≠ []) :
    ResourceStatus.get_worst l ∈ l := by
  cases l with
  | nil => exact absurd rfl h
  | cons x xs => exact ResourceStatus.foldl_minStatus_mem xs x

/-- A sample two-member resource group used to instantiate the universally
quantified theorems on a concrete input. -/
def sampleGroup : ResourceGroup :=
  { root := RTree.node ResourceStatus.Stopped
      [RTree.node ResourceStatus.RunningOnHome [], RTree.node ResourceStatus.Unknown []],
    overall := ResourceStatus.Unknown }

/-- C1: `update_overall_status` stores the minimum of the members' statuses
under the derived worst-first total order
`Unknown < Unrunnable < Stopped < CheckingAway < CheckingHome <
RunningOnAway < RunningOnHome`; the members enumerated by the BFS iterator
are exactly the nodes of the group's tree; `get_worst` of an empty iterator
is `Unknown`; hence the aggregate is `Unknown` or the status of some member
(for a group, which always has a root, it is in fact always attained by a
member). -/
theorem claim_C1 (g : ResourceGroup) :
    (ResourceStatus.rank ResourceStatus.Unknown < ResourceStatus.rank ResourceStatus.Unrunnable ∧
     ResourceStatus.rank ResourceStatus.Unrunnable < ResourceStatus.rank ResourceStatus.Stopped ∧
     ResourceStatus.rank ResourceStatus.Stopped < ResourceStatus.rank ResourceStatus.CheckingAway ∧
     ResourceStatus.rank ResourceStatus.CheckingAway < ResourceStatus.rank ResourceStatus.CheckingHome ∧
     ResourceStatus.rank ResourceStatus.CheckingHome < ResourceStatus.rank ResourceStatus.RunningOnAway ∧
     ResourceStatus.rank ResourceStatus.RunningOnAway < ResourceStatus.rank ResourceStatus.RunningOnHome) ∧
    (g.update_overall_status).overall = ResourceStatus.get_worst g.memberStatuses ∧
    g.memberStatuses.Perm (RTree.allStatuses g.root) ∧
    (∀ s ∈ g.memberStatuses, ResourceStatus.le (g.update_overall_status).overall s) ∧
    (g.update_overall_status).overall ∈ g.memberStatuses ∧
    ResourceStatus.get_worst [] = ResourceStatus.Unknown ∧
    (g.update_overall_status).overall ∈ ResourceStatus.Unknown :: g.memberStatuses := by
  refine ⟨by decide, rfl, ?_, ?_, ?_, rfl, ?_⟩
  · have h := RTree.bfsStatuses_perm [g.root]
    simpa [ResourceGroup.memberStatuses, RTree.allStatusesList] using h
  · intro s hs
    exact ResourceStatus.get_worst_le g.memberStatuses s hs
  · exact ResourceStatus.get_worst_mem_of_ne_nil g.memberStatuses
      (RTree.bfsStatuses_singleton_ne_nil g.root)
  · exact ResourceStatus.get_worst_mem g.memberStatuses

/-- Witness for C1: the aggregate of a concrete group with member statuses
`{Stopped, RunningOnHome, Unknown}` satisfies the aggregation properties. -/
theorem claim_C1_witness :
    (sampleGroup.update_overall_status).overall ∈ sampleGroup.memberStatuses ∧
    (∀ s ∈ sampleGroup.memberStatuses,
      ResourceStatus.le (sampleGroup.update_overall_status).overall s) :=
  ⟨(claim_C1 sampleGroup).2.2.2.2.1, (claim_C1 sampleGroup).2.2.2.1⟩

/-- C6: `From<i32> for Status` is total: codes 0..=7 map, in declaration
order, bijectively onto the eight OCF statuses (witnessed by the section
`code` of `fromCode`), and every integer outside 0..=7 maps to
`ErrUnimplemented`. -/
theorem claim_C6 :
    ((∀ s : OcfStatus, OcfStatus.fromCode (OcfStatus.code s) = s) ∧
     (∀ s : OcfStatus, 0 ≤ OcfStatus.code s ∧ OcfStatus.code s ≤ 7) ∧
     OcfStatus.fromCode 0 = OcfStatus.Success ∧
     OcfStatus.fromCode 1 = OcfStatus.ErrGeneric ∧
     OcfStatus.fromCode 2 = OcfStatus.ErrArgs ∧
     OcfStatus.fromCode 3 = OcfStatus.ErrUnimplemented ∧
     OcfStatus.fromCode 4 = OcfStatus.ErrPerm ∧
     OcfStatus.fromCode 5 = OcfStatus.ErrInstalled ∧
     OcfStatus.fromCode 6 = OcfStatus.ErrConfigured ∧
     OcfStatus.fromCode 7 = OcfStatus.ErrNotRunning) ∧
    (∀ c : Int, (c < 0 ∨ 7 < c) → OcfStatus.fromCode c = OcfStatus.ErrUnimplemented) := by
  refine ⟨⟨?_, ?_, rfl, rfl, rfl, rfl, rfl, rfl, rfl, rfl⟩, ?_⟩
  · intro s; cases s <;> rfl
  · intro s; cases s <;> exact ⟨by decide, by decide⟩
  · intro c hc
    simp only [OcfStatus.fromCode]
    split_ifs <;> first | rfl | omega

/-- Witness for C6: the out-of-range code `-5` maps to `ErrUnimplemented`. -/
theorem claim_C6_witness :
    ((-5 : Int) < 0 ∨ (7 : Int) < -5) ∧
      OcfStatus.fromCode (-5) = OcfStatus.ErrUnimplemented :=
  ⟨Or.inl (by norm_num), claim_C6.2 (-5) (Or.inl (by norm_num))⟩

theorem runSetStatus_up_or_unknown (calls : List HostStatus) :
    ∀ cur st, (cur = HostStatus.Up ∨ cur = HostStatus.Unknown) →
      runSetStatus cur calls = some st →
      st = HostStatus.Up ∨ st = HostStatus.Unknown := by
  induction calls with
  | nil =>
    intro cur st hcur h
    simp only [runSetStatus] at h
    cases h
    exact hcur
  | cons s rest ih =>
    intro cur st hcur h
    simp only [runSetStatus] at h
    cases s with
    | Down => simp [hostSetStatus] at h
    | Up => exact ih HostStatus.Up st (Or.inl rfl) h
    | Unknown => exact ih HostStatus.Unknown st (Or.inr rfl) h

/-- C9: `Host::set_status(Down)` is rejected — the call panics before
storing anything, so `Down` is never recorded; every value a successful
`set_status` stores is `Up` or `Unknown`; and after any sequence of
`set_status` calls from the initial status (`Unknown`), a non-panicked run
leaves the stored status in `{Up, Unknown}` — `get_status` can never return
`Down`. -/
theorem claim_C9 :
    hostSetStatus HostStatus.Down = none ∧
    (∀ s v, hostSetStatus s = some v → v ≠ HostStatus.Down) ∧
    (∀ calls st, runSetStatus hostInitialStatus calls = some st →
      st = HostStatus.Up ∨ st = HostStatus.Unknown) := by
  refine ⟨rfl, ?_, ?_⟩
  · intro s v h
    cases s <;> simp [hostSetStatus] at h <;> simp [← h]
  · intro calls st h
    exact runSetStatus_up_or_unknown calls hostInitialStatus st (Or.inr rfl) h

/-- Witness for C9: the sequence `set_status(Up); set_status(Unknown)` from
the initial status leaves the host at `Unknown`, which is in `{Up, Unknown}`. -/
theorem claim_C9_witness :
    runSetStatus hostInitialStatus [HostStatus.Up, HostStatus.Unknown] =
      some HostStatus.Unknown ∧
    (HostStatus.Unknown = HostStatus.Up ∨ HostStatus.Unknown = HostStatus.Unknown) :=
  ⟨rfl, claim_C9.2.2 [HostStatus.Up, HostStatus.Unknown] HostStatus.Unknown rfl⟩

theorem renderGo_eq (xs : List (String × String)) (h : xs ≠ []) :
    renderGo xs = commaJoin (xs.map renderKV) ++ "\x7d" := by
  induction xs with
  | nil => exact absurd rfl h
  | cons p rest ih =>
    cases rest with
    | nil => rfl
    | cons q rest' =>
      have ih' := ih (List.cons_ne_nil q rest')
      simp only [renderGo, List.map, commaJoin, ih']
      simp [String.append_assoc]

/-- C10: `params_string` opens with `{`; for a non-empty parameter map it
renders the `"key": "value"` pairs sorted by the pair comparator (hence with
keys in lexicographic order), separated by `", "`, and closes with `}`; for
an empty map the `for_each` body never runs, so the result is the single
character `{` with no closing brace. -/
theorem claim_C10 (l : List (String × String)) :
    params_string [] = "\x7b" ∧
    (l ≠ [] → params_string l =
      "\x7b" ++ commaJoin ((List.insertionSort pairLe l).map renderKV) ++ "\x7d") ∧
    List.Pairwise (fun a b => a.1 ≤ b.1) (List.insertionSort pairLe l) ∧
    (List.insertionSort pairLe l).Perm l := by
  refine ⟨rfl, ?_, ?_, List.perm_insertionSort pairLe l⟩
  · intro h
    have hsort : List.insertionSort pairLe l ≠ [] := by
      intro hnil
      have hp := List.perm_insertionSort pairLe l
      rw [hnil] at hp
      exact h hp.nil_eq.symm
    unfold params_string
    rw [renderGo_eq (List.insertionSort pairLe l) hsort, String.append_assoc]
  · have hs : List.Sorted pairLe (List.insertionSort pairLe l) :=
      List.sorted_insertionSort pairLe l
    refine List.Pairwise.imp ?_ hs
    intro a b hab
    rcases hab with h | ⟨he, _⟩
    · exact le_of_lt h
    · exact le_of_eq he

/-- Witness for C10: a concrete two-entry map is rendered sorted by key and
correctly braced. -/
theorem claim_C10_witness :
    params_string [("pool", "p1"), ("kind", "ost")] =
      "\x7b" ++ commaJoin ((List.insertionSort pairLe
        [("pool", "p1"), ("kind", "ost")]).map renderKV) ++ "\x7d" :=
  (claim_C10 [("pool", "p1"), ("kind", "ost")]).2.1 (List.cons_ne_nil _ _)

/-- C7 as stated is false: `observe_loop` writes the freshly mapped status
directly through the locked `status` field instead of calling `set_status`,
so the first `Unknown → RunningOnHome` transition after a successful
`Monitor(Home)` poll changes the status yet writes no "Updating …" line at
all. -/
theorem claim_C7_counterexample :
    (observeStep (Except.ok OcfStatus.Success) ResourceStatus.Unknown).1 =
      ResourceStatus.RunningOnHome ∧
    (observeStep (Except.ok OcfStatus.Success) ResourceStatus.Unknown).1 ≠
      ResourceStatus.Unknown ∧
    (observeStep (Except.ok OcfStatus.Success) ResourceStatus.Unknown).2 = [] :=
  ⟨rfl, by decide, rfl⟩

/-- C7 (amended): `set_status` — used by the manage-mode paths — stores the
new value and, when verbose logging is on and the value changed, emits the
"Updating status of resource <params> from <old> to <new>" line exactly once
per change (and never otherwise); but an observe-mode poll stores the mapped
status directly without `set_status` and emits no such line. -/
theorem claim_C7 (verbose : Bool) (params : List (String × String))
    (cur new : ResourceStatus) :
    (set_status verbose params cur new).1 = new ∧
    (set_status verbose params cur new).2.length =
      (if verbose = true ∧ cur ≠ new then 1 else 0) ∧
    (verbose = true → cur ≠ new →
      (set_status verbose params cur new).2 = [statusUpdateString params cur new]) ∧
    (∀ outcome : RpcOutcome, (observeStep outcome cur).2 = []) := by
  refine ⟨rfl, ?_, ?_, fun _ => rfl⟩
  · by_cases hv : verbose = true <;> by_cases hc : cur = new <;>
      simp [set_status, hv, hc]
  · intro hv hc
    simp [set_status, hv, hc]

/-- Witness for C7 (amended): with verbose on, a concrete change emits the
one expected line. -/
theorem claim_C7_witness :
    (set_status true [("pool", "p1")] ResourceStatus.Unknown
        ResourceStatus.RunningOnHome).2 =
      [statusUpdateString [("pool", "p1")] ResourceStatus.Unknown
        ResourceStatus.RunningOnHome] :=
  (claim_C7 true [("pool", "p1")] ResourceStatus.Unknown
    ResourceStatus.RunningOnHome).2.2.1 rfl (by decide)

namespace RTree

theorem updateTreeList_get (o : Oracle) (cs : List RTree) :
    ∀ j k, (updateTreeList o j cs)[k]? =
      (cs[k]?).map (fun c => updateTree (shiftOracle o (j + k)) c) := by
  induction cs with
  | nil => intro j k; simp [updateTreeList]
  | cons c rest ih =>
    intro j k
    cases k with
    | zero => simp [updateTreeList]
    | succ k' =>
      simp only [updateTreeList, List.getElem?_cons_succ]
      rw [ih (j + 1) k']
      have h : j + 1 + k' = j + (k' + 1) := by omega
      rw [h]

theorem mem_nodePathsList (cs : List RTree) :
    ∀ j q, q ∈ nodePathsList j cs ↔
      ∃ k c p', cs[k]? = some c ∧ q = (j + k) :: p' ∧ p' ∈ nodePaths c := by
  induction cs with
  | nil => intro j q; simp [nodePathsList]
  | cons c rest ih =>
    intro j q
    simp only [nodePathsList, List.mem_append, List.mem_map, ih (j + 1)]
    constructor
    · rintro (⟨p', hp', rfl⟩ | ⟨k, c', p', hk, rfl, hp'⟩)
      · exact ⟨0, c, p', by simp, by simp, hp'⟩
      · refine ⟨k + 1, c', p', by simpa using hk, ?_, hp'⟩
        have h : j + 1 + k = j + (k + 1) := by omega
        rw [h]
    · rintro ⟨k, c', p', hk, rfl, hp'⟩
      cases k with
      | zero =>
        simp only [List.getElem?_cons_zero, Option.some.injEq] at hk
        subst hk
        exact Or.inl ⟨p', hp', by simp⟩
      | succ k' =>
        simp only [List.getElem?_cons_succ] at hk
        refine Or.inr ⟨k', c', p', hk, ?_, hp'⟩
        have h : j + (k' + 1) = j + 1 + k' := by omega
        rw [h]

theorem statusAt_updateTree (o : Oracle) (p : List Nat) :
    ∀ t, p ∈ nodePaths t →
      statusAt p (updateTree o t) = some (monitorToStatus (o p)) := by
  induction p generalizing o with
  | nil =>
    intro t _
    cases t with
    | node st cs => rfl
  | cons i p' ih =>
    intro t hp
    cases t with
    | node st cs =>
      simp only [nodePaths, List.mem_cons] at hp
      rcases hp with hp | hp
      · cases hp
      rcases (mem_nodePathsList cs 0 (i :: p')).mp hp with ⟨k, c, p'', hk, heq, hp''⟩
      have hinj := (List.cons.injEq i p' (0 + k) p'').mp heq
      have hik : i = k := by omega
      have hpp : p' = p'' := hinj.2
      subst hik hpp
      simp only [updateTree, statusAt]
      rw [updateTreeList_get o cs 0 i, hk]
      have h0 : 0 + i = i := Nat.zero_add i
      rw [h0]
      exact ih (shiftOracle o i) c hp''

mutual
theorem anyErr_iff (o : Oracle) (t : RTree) :
    anyErr o t = true ↔ ∃ p ∈ nodePaths t, isErr (o p) = true := by
  cases t with
  | node st cs =>
    simp only [anyErr, Bool.or_eq_true, anyErrList_iff o 0 cs, nodePaths]
    constructor
    · rintro (h | ⟨q, hq, he⟩)
      · exact ⟨[], by simp, h⟩
      · exact ⟨q, by simp [hq], he⟩
    · rintro ⟨p, hp, he⟩
      rcases List.mem_cons.mp hp with rfl | hp
      · exact Or.inl he
      · exact Or.inr ⟨p, hp, he⟩
theorem anyErrList_iff (o : Oracle) (j : Nat) (cs : List RTree) :
    anyErrList o j cs = true ↔ ∃ q ∈ nodePathsList j cs, isErr (o q) = true := by
  cases cs with
  | nil => simp [anyErrList, nodePathsList]
  | cons c rest =>
    simp only [anyErrList, Bool.or_eq_true, anyErr_iff (shiftOracle o j) c,
      anyErrList_iff o (j + 1) rest, nodePathsList, List.mem_append, List.mem_map]
    constructor
    · rintro (⟨p, hp, he⟩ | ⟨q, hq, he⟩)
      · exact ⟨j :: p, Or.inl ⟨p, hp, rfl⟩, he⟩
      · exact ⟨q, Or.inr hq, he⟩
    · rintro ⟨q, ⟨p, hp, rfl⟩ | hq, he⟩
      · exact Or.inl ⟨p, hp, he⟩
      · exact Or.inr ⟨q, hq, he⟩
end

end RTree

/-- C4: after `update_resources`, every member's status is the image of its
monitor outcome under the source's mapping (`Success → RunningOnHome`,
`ErrNotRunning → Stopped`, any other OCF status → `Unknown`, transport
error → `Unknown`), and the home host's power status is `Unknown` exactly
when some member's monitor ended in a transport error, and `Up` otherwise. -/
theorem claim_C4 (t : RTree) (o : Oracle) :
    (∀ p ∈ RTree.nodePaths t,
      RTree.statusAt p (update_resources o t).1 = some (monitorToStatus (o p))) ∧
    monitorToStatus (Except.ok OcfStatus.Success) = ResourceStatus.RunningOnHome ∧
    monitorToStatus (Except.ok OcfStatus.ErrNotRunning) = ResourceStatus.Stopped ∧
    (∀ s : OcfStatus, s ≠ OcfStatus.Success → s ≠ OcfStatus.ErrNotRunning →
      monitorToStatus (Except.ok s) = ResourceStatus.Unknown) ∧
    (∀ e : Unit, monitorToStatus (Except.error e) = ResourceStatus.Unknown) ∧
    ((update_resources o t).2 = HostStatus.Unknown ↔
      ∃ p ∈ RTree.nodePaths t, isErr (o p) = true) ∧
    ((update_resources o t).2 = HostStatus.Unknown ∨
      (update_resources o t).2 = HostStatus.Up) := by
  refine ⟨?_, rfl, rfl, ?_, fun _ => rfl, ?_, ?_⟩
  · intro p hp
    exact RTree.statusAt_updateTree o p t hp
  · intro s h1 h2
    cases s <;> first | exact absurd rfl h1 | exact absurd rfl h2 | rfl
  · have hcond : ((if RTree.anyErr o t then HostStatus.Unknown else HostStatus.Up) =
        HostStatus.Unknown) ↔ RTree.anyErr o t = true := by
      by_cases h : RTree.anyErr o t <;> simp [h]
    exact hcond.trans (RTree.anyErr_iff o t)
  · by_cases h : RTree.anyErr o t <;> simp [update_resources, h]

/-- Witness for C4: in a two-node group where the root monitor succeeds and
the child monitor hits a transport error, the child's status becomes
`Unknown` and the host's power status becomes `Unknown`. -/
theorem claim_C4_witness :
    ([0] ∈ RTree.nodePaths
      (RTree.node ResourceStatus.Unknown [RTree.node ResourceStatus.Unknown []])) ∧
    RTree.statusAt [0]
      (update_resources
        (fun p => if p = [] then Except.ok OcfStatus.Success else Except.error ())
        (RTree.node ResourceStatus.Unknown [RTree.node ResourceStatus.Unknown []])).1 =
      some (monitorToStatus
        ((fun p => if p = [] then Except.ok OcfStatus.Success else Except.error ()) [0])) :=
  ⟨by decide,
    (claim_C4 (RTree.node ResourceStatus.Unknown [RTree.node ResourceStatus.Unknown []])
      (fun p => if p = [] then Except.ok OcfStatus.Success else Except.error ())).1
      [0] (by decide)⟩

namespace RTree

theorem startRecList_get (o : Oracle) (loc : Location) (cs : List RTree) :
    ∀ j k, (startRecList o loc j cs).1[k]? =
      (cs[k]?).map
        (fun c => (start_if_needed_recursive (shiftOracle o (j + k)) loc c).1) := by
  induction cs with
  | nil => intro j k; simp [startRecList]
  | cons c rest ih =>
    intro j k
    cases k with
    | zero => simp [startRecList]
    | succ k' =>
      simp only [startRecList, List.getElem?_cons_succ]
      rw [ih (j + 1) k']
      have h : j + 1 + k' = j + (k' + 1) := by omega
      rw [h]

theorem mem_startRecList (o : Oracle) (loc : Location) (cs : List RTree) :
    ∀ j q, q ∈ (startRecList o loc j cs).2 ↔
      ∃ k c p', cs[k]? = some c ∧ q = (j + k) :: p' ∧
        p' ∈ (start_if_needed_recursive (shiftOracle o (j + k)) loc c).2 := by
  induction cs with
  | nil => intro j q; simp [startRecList]
  | cons c rest ih =>
    intro j q
    simp only [startRecList, List.mem_append, List.mem_map, ih (j + 1)]
    constructor
    · rintro (⟨p', hp', rfl⟩ | ⟨k, c', p', hk, rfl, hp'⟩)
      · exact ⟨0, c, p', by simp, by simp, hp'⟩
      · refine ⟨k + 1, c', p', by simpa using hk, ?_, ?_⟩
        · have h : j + 1 + k = j + (k + 1) := by omega
          rw [h]
        · have h : j + (k + 1) = j + 1 + k := by omega
          rw [h]
          exact hp'
    · rintro ⟨k, c', p', hk, rfl, hp'⟩
      cases k with
      | zero =>
        simp only [List.getElem?_cons_zero, Option.some.injEq] at hk
        subst hk
        exact Or.inl ⟨p', hp', by simp⟩
      | succ k' =>
        simp only [List.getElem?_cons_succ] at hk
        refine Or.inr ⟨k', c', p', hk, ?_, ?_⟩
        · have h : j + (k' + 1) = j + 1 + k' := by omega
          rw [h]
        · have h : j + 1 + k' = j + (k' + 1) := by omega
          rw [h]
          exact hp'

/-- A proper prefix of `i :: p'` is either `[]` or `i ::` a proper prefix
of `p'`. -/
theorem proper_prefix_cons (q : List Nat) (i : Nat) (p' : List Nat) :
    (q <+: i :: p' ∧ q ≠ i :: p') ↔
      (q = [] ∨ ∃ q', q = i :: q' ∧ q' <+: p' ∧ q' ≠ p') := by
  cases q with
  | nil => simp [List.nil_prefix]
  | cons a q' =>
    constructor
    · rintro ⟨hpre, hne⟩
      rcases List.cons_prefix_cons.mp hpre with ⟨rfl, hq⟩
      refine Or.inr ⟨q', rfl, hq, ?_⟩
      intro h
      apply hne
      rw [h]
    · rintro (h | ⟨q'', heq, hq, hne⟩)
      · simp at h
      · injection heq with h1 h2
        subst h1
        subst h2
        constructor
        · exact List.cons_prefix_cons.mpr ⟨rfl, hq⟩
        · intro h
          injection h with _ h2'
          exact hne h2'

/-- Branch equation: an already running resource is left alone and the
recursion moves to the dependents. -/
theorem start_run_eq (o : Oracle) (loc : Location) (st : ResourceStatus)
    (cs : List RTree) (h : isRunning st = true) :
    start_if_needed_recursive o loc (node st cs) =
      (node st (startRecList o loc 0 cs).1, (startRecList o loc 0 cs).2) := by
  simp [start_if_needed_recursive, h]

/-- Branch equation: a non-running resource whose start attempt leaves it
running gets a `Start` (trace entry `[]`) and the recursion moves on. -/
theorem start_started_eq (o : Oracle) (loc : Location) (st : ResourceStatus)
    (cs : List RTree) (h : isRunning st = false)
    (h1 : isRunning (startResultStatus loc (o [])) = true) :
    start_if_needed_recursive o loc (node st cs) =
      (node (startResultStatus loc (o [])) (startRecList o loc 0 cs).1,
        [] :: (startRecList o loc 0 cs).2) := by
  simp [start_if_needed_recursive, h, h1]

/-- Branch equation: a non-running resource whose start attempt fails gets
a `Start` but its dependents are not attempted. -/
theorem start_fail_eq (o : Oracle) (loc : Location) (st : ResourceStatus)
    (cs : List RTree) (h : isRunning st = false)
    (h1 : isRunning (startResultStatus loc (o [])) = false) :
    start_if_needed_recursive o loc (node st cs) =
      (node (startResultStatus loc (o [])) cs, [[]]) := by
  simp [start_if_needed_recursive, h, h1]

/-- Core of the trace characterization for a composite path `i :: p'`, in
the branch where the (possibly just started) root is running and the
recursion descended into the dependents. `stOrig` is the root's status in
the original tree, `st'` its status after the root's own start attempt. -/
theorem trace_cons_core (loc : Location) (i : Nat) (p' : List Nat)
    (ih : ∀ (o : Oracle) (t : RTree),
      p' ∈ (start_if_needed_recursive o loc t).2 ↔
        ((∃ s, statusAt p' t = some s ∧ isRunning s = false) ∧
         (∀ q, q <+: p' → q ≠ p' →
           ∃ s, statusAt q (start_if_needed_recursive o loc t).1 = some s ∧
             isRunning s = true)))
    (o : Oracle) (stOrig st' : ResourceStatus) (cs : List RTree)
    (hrun : isRunning st' = true) :
    (i :: p') ∈ (startRecList o loc 0 cs).2 ↔
      ((∃ s, statusAt (i :: p') (node stOrig cs) = some s ∧ isRunning s = false) ∧
       (∀ q, q <+: i :: p' → q ≠ i :: p' →
         ∃ s, statusAt q (node st' (startRecList o loc 0 cs).1) = some s ∧
           isRunning s = true)) := by
  cases hc : cs[i]? with
  | none =>
    constructor
    · intro h
      rcases (mem_startRecList o loc cs 0 (i :: p')).mp h with ⟨k, c, p'', hk, heq, _⟩
      have hik : i = 0 + k := ((List.cons.injEq i p' (0 + k) p'').mp heq).1
      have hki : k = i := by omega
      rw [hki] at hk
      rw [hc] at hk
      cases hk
    · rintro ⟨⟨s, hs, _⟩, _⟩
      simp only [statusAt, hc] at hs
      exact Option.noConfusion hs
  | some c =>
    have hmem : (i :: p') ∈ (startRecList o loc 0 cs).2 ↔
        p' ∈ (start_if_needed_recursive (shiftOracle o i) loc c).2 := by
      rw [mem_startRecList o loc cs 0 (i :: p')]
      constructor
      · rintro ⟨k, c', p'', hk, heq, hp''⟩
        have hik : i = 0 + k := ((List.cons.injEq i p' (0 + k) p'').mp heq).1
        have hpp : p' = p'' := ((List.cons.injEq i p' (0 + k) p'').mp heq).2
        have hki : k = i := by omega
        subst hpp
        rw [hki] at hk hp''
        rw [hc] at hk
        cases hk
        have hsh : 0 + i = i := Nat.zero_add i
        rw [hsh] at hp''
        exact hp''
      · intro hp'
        refine ⟨i, c, p', hc, ?_, ?_⟩
        · have h0 : 0 + i = i := Nat.zero_add i
          rw [h0]
        · have h0 : 0 + i = i := Nat.zero_add i
          rw [h0]
          exact hp'
    rw [hmem, ih (shiftOracle o i) c]
    have horig : ∀ s, statusAt (i :: p') (node stOrig cs) = some s ↔
        statusAt p' c = some s := by
      intro s
      simp [statusAt, hc]
    have hchild : (startRecList o loc 0 cs).1[i]? =
        some (start_if_needed_recursive (shiftOracle o i) loc c).1 := by
      rw [startRecList_get o loc cs 0 i, hc]
      have h0 : 0 + i = i := Nat.zero_add i
      rw [h0]
      rfl
    constructor
    · rintro ⟨⟨s, hs, hsrun⟩, hpre⟩
      refine ⟨⟨s, (horig s).mpr hs, hsrun⟩, ?_⟩
      intro q hq hne
      rcases (proper_prefix_cons q i p').mp ⟨hq, hne⟩ with rfl | ⟨q', rfl, hq', hne'⟩
      · exact ⟨st', rfl, hrun⟩
      · rcases hpre q' hq' hne' with ⟨s', hs', hrun'⟩
        refine ⟨s', ?_, hrun'⟩
        simp only [statusAt, hchild]
        exact hs'
    · rintro ⟨⟨s, hs, hsrun⟩, hpre⟩
      refine ⟨⟨s, (horig s).mp hs, hsrun⟩, ?_⟩
      intro q' hq' hne'
      have hq : (i :: q') <+: i :: p' ∧ (i :: q') ≠ i :: p' :=
        (proper_prefix_cons (i :: q') i p').mpr (Or.inr ⟨q', rfl, hq', hne'⟩)
      rcases hpre (i :: q') hq.1 hq.2 with ⟨s', hs', hrun'⟩
      refine ⟨s', ?_, hrun'⟩
      simp only [statusAt, hchild] at hs'
      exact hs'

/-- The characterization of the `Start` trace of
`start_if_needed_recursive`: a node's path is in the trace exactly when the
node was not running before the tick (a `Start` RPC is only issued to a
non-running resource) and all of its proper ancestors are running after
their own start attempt (a resource whose start attempt leaves it
non-running blocks its whole subtree; a running one lets the recursion
proceed). -/
theorem start_trace_iff (loc : Location) (p : List Nat) :
    ∀ (o : Oracle) (t : RTree),
      p ∈ (start_if_needed_recursive o loc t).2 ↔
        ((∃ s, statusAt p t = some s ∧ isRunning s = false) ∧
         (∀ q, q <+: p → q ≠ p →
           ∃ s, statusAt q (start_if_needed_recursive o loc t).1 = some s ∧
             isRunning s = true)) := by
  induction p with
  | nil =>
    intro o t
    cases t with
    | node st cs =>
      have hvac : ∀ (u : RTree),
          (∀ q, q <+: ([] : List Nat) → q ≠ [] →
            ∃ s, statusAt q u = some s ∧ isRunning s = true) := by
        intro u q hq hne
        exact absurd (List.prefix_nil.mp hq) hne
      cases hst : isRunning st with
      | true =>
        rw [start_run_eq o loc st cs hst]
        constructor
        · intro h1
          rcases (mem_startRecList o loc cs 0 []).mp h1 with ⟨k, c, p'', _, heq, _⟩
          cases heq
        · rintro ⟨⟨s, hs, hsrun⟩, _⟩
          simp only [statusAt, Option.some.injEq] at hs
          rw [← hs, hst] at hsrun
          cases hsrun
      | false =>
        cases hs1 : isRunning (startResultStatus loc (o [])) with
        | true =>
          rw [start_started_eq o loc st cs hst hs1]
          constructor
          · intro _
            exact ⟨⟨st, rfl, hst⟩, hvac _⟩
          · intro _
            simp
        | false =>
          rw [start_fail_eq o loc st cs hst hs1]
          constructor
          · intro _
            exact ⟨⟨st, rfl, hst⟩, hvac _⟩
          · intro _
            simp
  | cons i p' ih =>
    intro o t
    cases t with
    | node st cs =>
      cases hst : isRunning st with
      | true =>
        rw [start_run_eq o loc st cs hst]
        exact trace_cons_core loc i p' ih o st st cs hst
      | false =>
        cases hs1 : isRunning (startResultStatus loc (o [])) with
        | true =>
          rw [start_started_eq o loc st cs hst hs1]
          have h := trace_cons_core loc i p' ih o st (startResultStatus loc (o [])) cs hs1
          constructor
          · intro h'
            rcases List.mem_cons.mp h' with h'' | h''
            · cases h''
            · exact h.mp h''
          · intro h'
            exact List.mem_cons.mpr (Or.inr (h.mpr h'))
        | false =>
          rw [start_fail_eq o loc st cs hst hs1]
          constructor
          · intro h
            exact absurd (List.mem_singleton.mp h) (by simp)
          · rintro ⟨_, hpre⟩
            rcases hpre [] List.nil_prefix (by simp) with ⟨s, hs, hsrun⟩
            simp only [statusAt, Option.some.injEq] at hs
            rw [← hs] at hsrun
            rw [hs1] at hsrun
            exact absurd hsrun (by simp)

end RTree

/-- C3: `start_if_needed_recursive(L)` (entered through
`try_start_resources`) issues a `Start` RPC exactly for the nodes that are
not already running (`is_running` holds exactly for `RunningOnHome` and
`RunningOnAway`) and all of whose proper ancestors are running after their
own start attempt: a resource whose attempt does not leave it running
blocks its dependents for the tick, while a running (or successfully
started) resource has its dependents started. -/
theorem claim_C3 (t : RTree) (o : Oracle) (loc : Location) :
    (∀ s, isRunning s = true ↔
      (s = ResourceStatus.RunningOnHome ∨ s = ResourceStatus.RunningOnAway)) ∧
    (∀ p, p ∈ (try_start_resources o loc t).2 ↔
      ((∃ s, RTree.statusAt p t = some s ∧ isRunning s = false) ∧
       (∀ q, q <+: p → q ≠ p →
         ∃ s, RTree.statusAt q (try_start_resources o loc t).1 = some s ∧
           isRunning s = true))) := by
  constructor
  · intro s
    cases s <;> simp [isRunning]
  · intro p
    exact RTree.start_trace_iff loc p o t

/-- Witness for C3: with a stopped root and a stopped dependent and an
environment whose every start succeeds, the dependent's `Start` is issued
(its parent became running first). -/
theorem claim_C3_witness :
    [0] ∈ (try_start_resources (fun _ => Except.ok OcfStatus.Success)
      Location.Home
      (RTree.node ResourceStatus.Stopped [RTree.node ResourceStatus.Stopped []])).2 :=
  ((claim_C3 (RTree.node ResourceStatus.Stopped [RTree.node ResourceStatus.Stopped []])
      (fun _ => Except.ok OcfStatus.Success) Location.Home).2 [0]).mpr
    ⟨⟨ResourceStatus.Stopped, rfl, rfl⟩, by
      intro q hq hne
      have hq' : q = [] := by
        rcases (RTree.proper_prefix_cons q 0 []).mp ⟨hq, hne⟩ with h | ⟨q', rfl, hq'', hne''⟩
        · exact h
        · exact absurd (List.prefix_nil.mp hq'') hne''
      subst hq'
      exact ⟨ResourceStatus.RunningOnHome, rfl, rfl⟩⟩

theorem monitorToStatus_nonHA (r : RpcOutcome) :
    nonHAStatus (monitorToStatus r) = true := by
  rcases r with e | s
  · rfl
  · cases s <;> rfl

theorem startResultStatus_home_nonHA (r : RpcOutcome) :
    nonHAStatus (startResultStatus Location.Home r) = true := by
  rcases r with e | s
  · rfl
  · cases s <;> rfl

namespace RTree

mutual
theorem updateTree_nonHA (o : Oracle) (t : RTree) :
    ∀ s ∈ allStatuses (updateTree o t), nonHAStatus s = true := by
  cases t with
  | node st cs =>
    intro s hs
    simp only [updateTree, allStatuses, List.mem_cons] at hs
    rcases hs with rfl | hs
    · exact monitorToStatus_nonHA (o [])
    · exact updateTreeList_nonHA o 0 cs s hs
theorem updateTreeList_nonHA (o : Oracle) (j : Nat) (cs : List RTree) :
    ∀ s ∈ allStatusesList (updateTreeList o j cs), nonHAStatus s = true := by
  cases cs with
  | nil => intro s hs; simp [updateTreeList, allStatusesList] at hs
  | cons c rest =>
    intro s hs
    simp only [updateTreeList, allStatusesList, List.mem_append] at hs
    rcases hs with hs | hs
    · exact updateTree_nonHA (shiftOracle o j) c s hs
    · exact updateTreeList_nonHA o (j + 1) rest s hs
end

mutual
theorem start_home_nonHA (o : Oracle) (t : RTree)
    (h : ∀ s ∈ allStatuses t, nonHAStatus s = true) :
    ∀ s ∈ allStatuses (start_if_needed_recursive o Location.Home t).1,
      nonHAStatus s = true := by
  cases t with
  | node st cs =>
    have hroot : nonHAStatus st = true := h st (by simp [allStatuses])
    have hcs : ∀ s ∈ allStatusesList cs, nonHAStatus s = true := by
      intro s hs
      exact h s (by simp [allStatuses, hs])
    intro s hs
    cases hst : isRunning st with
    | true =>
      rw [start_run_eq o Location.Home st cs hst] at hs
      simp only [allStatuses, List.mem_cons] at hs
      rcases hs with rfl | hs
      · exact hroot
      · exact startList_home_nonHA o 0 cs hcs s hs
    | false =>
      cases hs1 : isRunning (startResultStatus Location.Home (o [])) with
      | true =>
        rw [start_started_eq o Location.Home st cs hst hs1] at hs
        simp only [allStatuses, List.mem_cons] at hs
        rcases hs with rfl | hs
        · exact startResultStatus_home_nonHA (o [])
        · exact startList_home_nonHA o 0 cs hcs s hs
      | false =>
        rw [start_fail_eq o Location.Home st cs hst hs1] at hs
        simp only [allStatuses, List.mem_cons] at hs
        rcases hs with rfl | hs
        · exact startResultStatus_home_nonHA (o [])
        · exact hcs s hs
theorem startList_home_nonHA (o : Oracle) (j : Nat) (cs : List RTree)
    (h : ∀ s ∈ allStatusesList cs, nonHAStatus s = true) :
    ∀ s ∈ allStatusesList (startRecList o Location.Home j cs).1,
      nonHAStatus s = true := by
  cases cs with
  | nil => intro s hs; simp [startRecList, allStatusesList] at hs
  | cons c rest =>
    intro s hs
    simp only [startRecList, allStatusesList, List.mem_append] at hs
    rcases hs with hs | hs
    · refine start_home_nonHA (shiftOracle o j) c ?_ s hs
      intro x hx
      exact h x (by simp [allStatusesList, hx])
    · refine startList_home_nonHA o (j + 1) rest ?_ s hs
      intro x hx
      exact h x (by simp [allStatusesList, hx])
end

end RTree

theorem bfs_good (t : RTree) (h : ∀ x ∈ RTree.allStatuses t, nonHAStatus x = true) :
    ∀ x ∈ RTree.bfsStatuses [t], nonHAStatus x = true := by
  intro x hx
  have hperm := RTree.bfsStatuses_perm [t]
  have hx' : x ∈ RTree.allStatusesList [t] := hperm.mem_iff.mp hx
  simp only [RTree.allStatusesList, List.append_nil] at hx'
  exact h x hx'

theorem get_worst_good (l : List ResourceStatus)
    (h : ∀ x ∈ l, nonHAStatus x = true) :
    nonHAStatus (ResourceStatus.get_worst l) = true := by
  have hm := ResourceStatus.get_worst_mem l
  rcases List.mem_cons.mp hm with heq | hmem
  · rw [heq]; rfl
  · exact h _ hmem

theorem step_ok : ∀ (s : NonHAState) (o : Oracle), nonHAInv s →
    ∃ s', manage_non_ha_step s o = Except.ok s' ∧ nonHAInv s' := by
  rintro ⟨t, ov, hostst⟩ o ⟨h1, h2⟩
  simp only [nonHAInv] at *
  cases ov with
  | Unknown =>
    refine ⟨_, rfl, ?_, ?_⟩
    · exact get_worst_good _ (bfs_good _ (RTree.updateTree_nonHA o t))
    · exact RTree.updateTree_nonHA o t
  | Stopped =>
    refine ⟨_, rfl, ?_, ?_⟩
    · exact get_worst_good _ (bfs_good _ (RTree.start_home_nonHA o t h2))
    · exact RTree.start_home_nonHA o t h2
  | RunningOnHome =>
    refine ⟨_, rfl, ?_, ?_⟩
    · exact get_worst_good _ (bfs_good _ (RTree.updateTree_nonHA o t))
    · exact RTree.updateTree_nonHA o t
  | Unrunnable =>
    refine ⟨_, rfl, ?_, ?_⟩
    · exact get_worst_good _ (bfs_good _ h2)
    · exact h2
  | RunningOnAway => simp [nonHAStatus] at h1
  | CheckingHome => simp [nonHAStatus] at h1
  | CheckingAway => simp [nonHAStatus] at h1

theorem runSteps_ok : ∀ (os : List Oracle) (s : NonHAState), nonHAInv s →
    ∃ s', runNonHASteps s os = Except.ok s' ∧ nonHAInv s' := by
  intro os
  induction os with
  | nil => intro s h; exact ⟨s, rfl, h⟩
  | cons o rest ih =>
    intro s h
    rcases step_ok s o h with ⟨s', hstep, hinv⟩
    rcases ih s' hinv with ⟨s'', hrun, hinv'⟩
    refine ⟨s'', ?_, hinv'⟩
    simp only [runNonHASteps, hstep]
    exact hrun

/-- C2: driving the non-HA manage loop from a tree whose statuses start all
`Unknown`, with any environment behaviour and for any number of ticks, never
reaches the `panic!` arms: the run always returns `ok`, which means every
dispatch read an aggregate other than `RunningOnAway`, `CheckingHome` and
`CheckingAway` (those three arms return `Except.error`); moreover the final
aggregate and all member statuses remain in `{Unknown, Stopped,
RunningOnHome}`, the only values the non-HA paths can store. -/
theorem claim_C2 (t0 : RTree) (o0 : Oracle) (os : List Oracle)
    (_h : ∀ x ∈ RTree.allStatuses t0, x = ResourceStatus.Unknown) :
    ∃ fin, runNonHA t0 o0 os = Except.ok fin ∧
      nonHAStatus fin.overall = true ∧
      (∀ x ∈ RTree.allStatuses fin.tree, nonHAStatus x = true) ∧
      fin.overall ≠ ResourceStatus.RunningOnAway ∧
      fin.overall ≠ ResourceStatus.CheckingHome ∧
      fin.overall ≠ ResourceStatus.CheckingAway := by
  have hinv : nonHAInv
      { tree := (update_resources o0 t0).1,
        overall := ResourceStatus.Unknown,
        host := (update_resources o0 t0).2 } := by
    constructor
    · rfl
    · exact RTree.updateTree_nonHA o0 t0
  rcases runSteps_ok os _ hinv with ⟨fin, hrun, h1, h2⟩
  refine ⟨fin, hrun, h1, h2, ?_, ?_, ?_⟩ <;>
    · intro heq
      rw [heq] at h1
      simp [nonHAStatus] at h1

/-- Witness for C2: one concrete run (singleton tree, all RPCs succeed, two
ticks) never panics. -/
theorem claim_C2_witness :
    (∀ x ∈ RTree.allStatuses (RTree.node ResourceStatus.Unknown []),
      x = ResourceStatus.Unknown) ∧
    ∃ fin, runNonHA (RTree.node ResourceStatus.Unknown [])
        (fun _ => Except.ok OcfStatus.Success)
        [fun _ => Except.ok OcfStatus.Success] = Except.ok fin ∧
      nonHAStatus fin.overall = true ∧
      (∀ x ∈ RTree.allStatuses fin.tree, nonHAStatus x = true) ∧
      fin.overall ≠ ResourceStatus.RunningOnAway ∧
      fin.overall ≠ ResourceStatus.CheckingHome ∧
      fin.overall ≠ ResourceStatus.CheckingAway :=
  ⟨by decide,
    claim_C2 (RTree.node ResourceStatus.Unknown [])
      (fun _ => Except.ok OcfStatus.Success)
      [fun _ => Except.ok OcfStatus.Success] (by decide)⟩

theorem keysOf_append (P Q : List Entry) :
    keysOf (P ++ Q) = keysOf P ++ keysOf Q := by
  simp [keysOf]

theorem childIds_snoc (P : List Entry) (e : Entry) (x : String) :
    childIds (P ++ [e]) x =
      (if e.2.requires = some x then childIds P x ++ [e.1] else childIds P x) := by
  by_cases h : e.2.requires = some x <;>
    simp [childIds, List.filter_append, List.filter, h]

theorem rootIds_snoc (P : List Entry) (e : Entry) :
    rootIds (P ++ [e]) =
      (if e.2.requires = none then rootIds P ++ [e.1] else rootIds P) := by
  by_cases h : e.2.requires = none <;>
    simp [rootIds, List.filter_append, List.filter, h]

theorem updateFn_same (f : String → List String) (k : String) (v : List String) :
    updateFn f k v k = v := by
  simp [updateFn]

theorem updateFn_other (f : String → List String) (k : String) (v : List String)
    (x : String) (h : x ≠ k) : updateFn f k v x = f x := by
  simp [updateFn, h]

theorem buildStep_spec (keys : List String) (P : List Entry) (e : Entry)
    (st : BuildState) (hinv : buildInv P st) (hid : e.1 ∉ keysOf P)
    (hpar : ∀ par, e.2.requires = some par → par ∈ keys) :
    ∃ st2, buildStep keys st e = Except.ok st2 ∧ buildInv (P ++ [e]) st2 := by
  obtain ⟨hproc, hprocCh, horig, hroots⟩ := hinv
  have hkeys' : keysOf (P ++ [e]) = keysOf P ++ [e.1] := keysOf_append P [e]
  cases hreq : e.2.requires with
  | none =>
    refine ⟨_, by simp only [buildStep, hreq]; rfl, ?_, ?_, ?_, ?_⟩
    · dsimp only
      simp only [hkeys', hproc]
    · intro x hx
      try dsimp only
      rw [hkeys'] at hx
      rw [childIds_snoc, hreq, if_neg (by simp : ¬(none : Option String) = some x)]
      by_cases hxe : x = e.1
      · subst hxe
        rw [updateFn_same]
        exact horig _ hid
      · have hxP : x ∈ keysOf P := by
          rcases List.mem_append.mp hx with h | h
          · exact h
          · exact absurd (List.mem_singleton.mp h) hxe
        rw [updateFn_other _ _ _ _ hxe]
        exact hprocCh x hxP
    · intro x hx
      try dsimp only
      rw [hkeys'] at hx
      have hxP : x ∉ keysOf P := fun h => hx (List.mem_append.mpr (Or.inl h))
      rw [childIds_snoc, hreq, if_neg (by simp : ¬(none : Option String) = some x)]
      exact horig x hxP
    · dsimp only
      rw [rootIds_snoc, hreq, if_pos rfl, hroots]
  | some par =>
    have hkey := hpar par hreq
    by_cases hp : par ∈ st.processed ++ [e.1]
    · refine ⟨_, by simp only [buildStep, hreq]; rw [if_pos hp], ?_, ?_, ?_, ?_⟩
      · try dsimp only
        simp only [hkeys', hproc]
      · intro x hx
        try dsimp only
        rw [hkeys'] at hx
        have hparmem : par ∈ keysOf P ++ [e.1] := by rw [← hproc]; exact hp
        have hinner_eq : ∀ y, y ∈ keysOf P ++ [e.1] →
            updateFn st.procChildren e.1 (st.origChildren e.1) y = childIds P y := by
          intro y hy
          by_cases hye : y = e.1
          · subst hye
            rw [updateFn_same]
            exact horig _ hid
          · have hyP : y ∈ keysOf P := by
              rcases List.mem_append.mp hy with h | h
              · exact h
              · exact absurd (List.mem_singleton.mp h) hye
            rw [updateFn_other _ _ _ _ hye]
            exact hprocCh y hyP
        rw [childIds_snoc, hreq]
        by_cases hxpar : x = par
        · subst hxpar
          rw [if_pos rfl, updateFn_same, hinner_eq x hparmem]
        · rw [if_neg (fun h => hxpar (Option.some.inj h).symm)]
          rw [updateFn_other _ _ _ _ hxpar]
          exact hinner_eq x hx
      · intro x hx
        try dsimp only
        rw [hkeys'] at hx
        have hxP : x ∉ keysOf P := fun h => hx (List.mem_append.mpr (Or.inl h))
        have hxpar : x ≠ par := by
          intro h
          subst h
          rw [hproc] at hp
          exact hx hp
        rw [childIds_snoc, hreq]
        rw [if_neg (fun h => hxpar (Option.some.inj h).symm)]
        exact horig x hxP
      · dsimp only
        rw [rootIds_snoc, hreq, if_neg (by simp), hroots]
    · refine ⟨_, by simp only [buildStep, hreq]; rw [if_neg hp, if_pos hkey],
        ?_, ?_, ?_, ?_⟩
      · try dsimp only
        simp only [hkeys', hproc]
      · intro x hx
        try dsimp only
        rw [hkeys'] at hx
        have hparP : par ∉ keysOf P := by
          intro h
          exact hp (by rw [hproc]; exact List.mem_append.mpr (Or.inl h))
        rw [childIds_snoc, hreq]
        by_cases hxe : x = e.1
        · subst hxe
          have hpare : par ≠ e.1 := by
            intro h
            exact hp (by rw [h]; simp)
          rw [if_neg (fun h => hpare (Option.some.inj h))]
          rw [updateFn_same]
          exact horig _ hid
        · have hxP : x ∈ keysOf P := by
            rcases List.mem_append.mp hx with h | h
            · exact h
            · exact absurd (List.mem_singleton.mp h) hxe
          have hxpar : par ≠ x := fun h => hparP (h ▸ hxP)
          rw [if_neg (fun h => hxpar (Option.some.inj h))]
          rw [updateFn_other _ _ _ _ hxe]
          exact hprocCh x hxP
      · intro x hx
        try dsimp only
        rw [hkeys'] at hx
        have hxP : x ∉ keysOf P := fun h => hx (List.mem_append.mpr (Or.inl h))
        have hparP : par ∉ keysOf P := by
          intro h
          exact hp (by rw [hproc]; exact List.mem_append.mpr (Or.inl h))
        rw [childIds_snoc, hreq]
        by_cases hxpar : x = par
        · subst hxpar
          rw [if_pos rfl, updateFn_same, horig x hparP]
        · rw [if_neg (fun h => hxpar (Option.some.inj h).symm)]
          rw [updateFn_other _ _ _ _ hxpar]
          exact horig x hxP
      · dsimp only
        rw [rootIds_snoc, hreq, if_neg (by simp), hroots]

theorem buildFold_spec (keys : List String) :
    ∀ (rest P : List Entry) (st : BuildState),
      buildInv P st →
      (keysOf (P ++ rest)).Nodup →
      (∀ e ∈ rest, ∀ par, e.2.requires = some par → par ∈ keys) →
      ∃ st', buildFold keys st rest = Except.ok st' ∧ buildInv (P ++ rest) st' := by
  intro rest
  induction rest with
  | nil =>
    intro P st hinv _ _
    exact ⟨st, rfl, by simpa using hinv⟩
  | cons e rest' ih =>
    intro P st hinv hnodup hreq
    have hid : e.1 ∉ keysOf P := by
      have h' : (keysOf P ++ e.1 :: keysOf rest').Nodup := by
        simpa [keysOf] using hnodup
      rw [List.nodup_append] at h'
      intro hmem
      exact h'.2.2 hmem (by simp)
    rcases buildStep_spec keys P e st hinv hid (hreq e (by simp)) with
      ⟨st2, hstep, hinv2⟩
    have hassoc : (P ++ [e]) ++ rest' = P ++ e :: rest' := by simp
    have hnodup' : (keysOf ((P ++ [e]) ++ rest')).Nodup := by
      rw [hassoc]
      exact hnodup
    rcases ih (P ++ [e]) st2 hinv2 hnodup'
        (fun e' he' => hreq e' (by simp [he'])) with ⟨st', hfold, hinv'⟩
    refine ⟨st', ?_, ?_⟩
    · simp only [buildFold, hstep]
      exact hfold
    · rw [hassoc] at hinv'
      exact hinv'

/-- The characterization of the tree-building pass on a well-formed host
configuration (distinct resource ids, all `requires` resolvable): it
returns without panicking, the roots are exactly the entries without
`requires` in iteration order, and the dependents of each resource `x` are
exactly the entries whose `requires` names `x`, in iteration order. -/
theorem build_spec (l : List Entry) (hnodup : (keysOf l).Nodup)
    (hreq : ∀ e ∈ l, ∀ par, e.2.requires = some par → par ∈ keysOf l) :
    ∃ st, one_host_resource_groups l = Except.ok st ∧
      st.roots = rootIds l ∧
      (∀ x, x ∈ keysOf l → st.procChildren x = childIds l x) := by
  have hinv0 : buildInv [] initBuildState := by
    refine ⟨rfl, ?_, ?_, rfl⟩
    · intro x hx
      simp [keysOf] at hx
    · intro x _
      rfl
  rcases buildFold_spec (keysOf l) l [] initBuildState hinv0 (by simpa using hnodup)
      hreq with ⟨st, hfold, hinv⟩
  simp only [List.nil_append] at hinv
  exact ⟨st, hfold, hinv.2.2.2, hinv.2.1⟩

/-- C5 concerns this input: `Cluster::one_host_resource_groups` on
`c5FailingEntries` — one resource whose `requires` names a non-existent id —
reaches `resources.get(parent).unwrap()` (src/cluster.rs:234) and panics
(modelled as `Except.error ()`) instead of producing the configuration
error the spec requires; the code's own TODO comment records that a
reported error is the intent. -/
theorem claim_C5 : one_host_resource_groups c5FailingEntries = Except.error () := rfl

/-- C8: per-host cluster assembly is order-independent up to the sibling
order that the map's iteration order itself fixes: for any permutation of
a well-formed host's entry list, both builds succeed, the root multiset,
each resource's dependent multiset and every id's
(kind, parameters, requires) tuple — and hence, with the host bindings
fixed per host, every resource's (home, away, parameters, kind) tuple —
are identical; and the per-host pass of `Cluster::new` maps a permutation
of the hosts list to a permutation of the per-host results. -/
theorem claim_C8 (l l' : List Entry) (hperm : l.Perm l')
    (hnodup : (keysOf l).Nodup)
    (hreq : ∀ e ∈ l, ∀ par, e.2.requires = some par → par ∈ keysOf l) :
    ∃ st st', one_host_resource_groups l = Except.ok st ∧
      one_host_resource_groups l' = Except.ok st' ∧
      st.roots.Perm st'.roots ∧
      (∀ x, x ∈ keysOf l → (st.procChildren x).Perm (st'.procChildren x)) ∧
      (∀ e : Entry, e ∈ l ↔ e ∈ l') ∧
      (∀ hosts hosts' : List (String × List Entry), hosts.Perm hosts' →
        (clusterAssembly hosts).Perm (clusterAssembly hosts')) := by
  have hkeysperm : (keysOf l).Perm (keysOf l') := hperm.map Prod.fst
  have hnodup' : (keysOf l').Nodup := hkeysperm.nodup_iff.mp hnodup
  have hreq' : ∀ e ∈ l', ∀ par, e.2.requires = some par → par ∈ keysOf l' := by
    intro e he par hp
    exact hkeysperm.mem_iff.mp (hreq e (hperm.mem_iff.mpr he) par hp)
  rcases build_spec l hnodup hreq with ⟨st, hok, hroots, hch⟩
  rcases build_spec l' hnodup' hreq' with ⟨st', hok', hroots', hch'⟩
  refine ⟨st, st', hok, hok', ?_, ?_, ?_, ?_⟩
  · rw [hroots, hroots']
    exact (hperm.filter _).map Prod.fst
  · intro x hx
    rw [hch x hx, hch' x (hkeysperm.mem_iff.mp hx)]
    exact (hperm.filter _).map Prod.fst
  · intro e
    exact hperm.mem_iff
  · intro hosts hosts' hp
    exact hp.map _

/-- Witness for C8: the two-resource host (`ost1` requires `p1`) assembled
in both iteration orders yields the same roots, children and entries up to
permutation. -/
theorem claim_C8_witness :
    ∃ st st',
      one_host_resource_groups [c8EntryPool, c8EntryOst] = Except.ok st ∧
      one_host_resource_groups [c8EntryOst, c8EntryPool] = Except.ok st' ∧
      st.roots.Perm st'.roots ∧
      (∀ x, x ∈ keysOf [c8EntryPool, c8EntryOst] →
        (st.procChildren x).Perm (st'.procChildren x)) ∧
      (∀ e : Entry, e ∈ [c8EntryPool, c8EntryOst] ↔ e ∈ [c8EntryOst, c8EntryPool]) ∧
      (∀ hosts hosts' : List (String × List Entry), hosts.Perm hosts' →
        (clusterAssembly hosts).Perm (clusterAssembly hosts')) :=
  claim_C8 [c8EntryPool, c8EntryOst] [c8EntryOst, c8EntryPool]
    (List.Perm.swap _ _ _) (by decide) (by decide)

end Halo
